import Mathlib

/-!
Shallow embedding of `scripts/snapshot.py` from the gov-airdrop repository.

Conventions of the embedding:
* Addresses are natural numbers; the zero/mint/burn sentinel address is `0`.
* Python `Counter` balance tables are embedded as total functions `Nat → Int`
  (a missing key reads as `0`, exactly as `Counter` does), and Python `dict`
  tables whose iteration order matters are embedded as association lists
  `List (Nat × Int)` in insertion order.
* `int(Fraction(a, b))` is `Int.tdiv a b` (Python `int()` truncates an exact
  rational toward zero; `Fraction` arithmetic is exact).
* Keccak hashes are opaque: layer hashing is parameterised by an arbitrary
  `H : Nat → Nat → Nat` applied to the (byte-wise, i.e. numerically) sorted
  pair, and leaf hashing by an arbitrary `L : Nat → Nat`.
* A Python function that can raise (`assert`, `ZeroDivisionError`) is embedded
  as an `Option`-returning function; `none` is the aborted run.
-/

namespace Snapshot

/-- One ERC20 `Transfer(src, dst, wad)` event. -/
structure Transfer where
  src : Nat
  dst : Nat
  wad : Int
  deriving DecidableEq, Repr

/-- Loop body of `transfers_to_balances`:
`if src != ZERO: balances[src] -= wad; if dst != ZERO: balances[dst] += wad`. -/
def applyLog (b : Nat → Int) (t : Transfer) : Nat → Int :=
  let b1 : Nat → Int := fun a => if t.src ≠ 0 ∧ a = t.src then b a - t.wad else b a
  fun a => if t.dst ≠ 0 ∧ a = t.dst then b1 a + t.wad else b1 a

/-- The event fold of `transfers_to_balances`, over an already-fetched list of
events (the batching that produces that list is `transfers_to_balances_batched`
below). -/
def transfers_to_balances (logs : List Transfer) : Nat → Int :=
  logs.foldl applyLog (fun _ => 0)

/-- All addresses touched by a list of events (the support of the `Counter`). -/
def holders : List Transfer → List Nat
  | [] => []
  | t :: ts => t.src :: t.dst :: holders ts

/-- The nonzero values of the balance table built from `logs`: the values of
`valfilter(bool, dict(balances.most_common()))` (order irrelevant here). -/
def balanceValues (logs : List Transfer) : List Int :=
  (((holders logs).dedup).map (transfers_to_balances logs)).filter
    (fun v => !(v == 0))

/-- The per-token body of `step_01` including
`assert min(balances[name].values()) >= 0`: `false` means the stage aborts
(`min` of an empty sequence also raises, hence the nonempty conjunct). -/
def step_01_check (logs : List Transfer) : Bool :=
  !(balanceValues logs).isEmpty && (balanceValues logs).all (fun v => decide (0 ≤ v))

/-- `step_01` over the per-token event logs: `none` is the aborted pipeline. -/
def step_01 (tokenLogs : List (List Transfer)) : Option (List (Nat → Int)) :=
  if tokenLogs.all step_01_check then some (tokenLogs.map transfers_to_balances)
  else none

/-- `contract.events.Transfer().getLogs(fromBlock=lo, toBlock=hi)` against a
chain modelled as a list of block-number/event pairs: both bounds inclusive. -/
def getLogs (chain : List (Nat × Transfer)) (lo hi : Nat) : List Transfer :=
  (chain.filter (fun p => decide (lo ≤ p.1 ∧ p.1 ≤ hi))).map Prod.snd

/-- Python `range(lo, hi, step)`: `lo + k * step` for
`k < ceil((hi - lo) / step)`. -/
def batchStarts (lo hi step : Nat) : List Nat :=
  (List.range ((hi - lo + step - 1) / step)).map (fun k => lo + k * step)

def START_BLOCK : Nat := 10950650
def SNAPSHOT_BLOCK : Nat := 10954410

/-- The full `transfers_to_balances` loop: fetch events in batches
`[start, min(start + (step-1), hi)]` for `start in range(lo, hi, step)` and
fold each batch into the running balance table (the source uses
`lo = START_BLOCK`, `hi = SNAPSHOT_BLOCK`, `step = 1000`). -/
def transfers_to_balances_batched (chain : List (Nat × Transfer))
    (lo hi step : Nat) : Nat → Int :=
  (batchStarts lo hi step).foldl
    (fun bal start => (getLogs chain start (min (start + (step - 1)) hi)).foldl applyLog bal)
    (fun _ => 0)

/-- `Wei('1 ether')`. -/
def wei_ether : Int := 10 ^ 18

/-- `DISTRIBUTION_AMOUNT = Wei('8000000 ether')`. -/
def DISTRIBUTION_AMOUNT : Int := 8000000 * 10 ^ 18

/-- The dict comprehension of `step_04` (lines 176-177):
`{user: int(Fraction(balances[user], supply) * contracts[address]) for user in balances}`
with `supply = sum(balances.values())`. -/
def pool_alloc (shares : List (Nat × Int)) (value : Int) : List (Nat × Int) :=
  shares.map (fun p => (p.1, Int.tdiv (p.2 * value) ((shares.map Prod.snd).sum)))

/-- The body of the `step_04` loop for one recognized pool, i.e. lines 172-179:
`supply = sum(balances.values()); if not supply: continue;`
`replacements[address] = {user: int(Fraction(balances[user], supply) * value)};`
`assert sum(...) <= value`.
`some none` is the `continue` (pool skipped, no replacement entry),
`some (some entries)` is a recorded replacement, `none` is the
`'no inflation ser'` assertion aborting the stage. -/
def step_04_pool (shares : List (Nat × Int)) (value : Int) :
    Option (Option (List (Nat × Int))) :=
  if (shares.map Prod.snd).sum = 0 then some none
  else if ((pool_alloc shares value).map Prod.snd).sum ≤ value then
    some (some (pool_alloc shares value))
  else none

/-- The dict comprehension of `step_06` (lines 200-201):
`{user: int(Fraction(balance, total) * T) for user, balance in balances.items()}`
where `balances` has already been dust-filtered but `total` is the sum of the
unfiltered table. -/
def pro_rata_alloc (balances : List (Nat × Int)) (T : Int) : List (Nat × Int) :=
  (balances.filter (fun p => decide (wei_ether ≤ p.2))).map
    (fun p => (p.1, Int.tdiv (p.2 * T) ((balances.map Prod.snd).sum)))

/-- `step_06` with the distribution total `T` as an explicit argument (the
source applies it to `T = DISTRIBUTION_AMOUNT`):
`total = sum(balances.values())` (before the dust filter!), then
`balances = valfilter(lambda v: v >= Wei('1 ether'), balances)`, then
`pro_rata = {user: int(Fraction(balance, total) * T)}`, then
`assert sum(pro_rata.values()) <= T`.  `none` is an aborted run (the
assertion, or `Fraction(balance, 0)` raising `ZeroDivisionError` when the
comprehension body runs with `total = 0`). -/
def step_06 (balances : List (Nat × Int)) (T : Int) : Option (List (Nat × Int)) :=
  if balances.filter (fun p => decide (wei_ether ≤ p.2)) ≠ [] ∧
      (balances.map Prod.snd).sum = 0 then none
  else if ((pro_rata_alloc balances T).map Prod.snd).sum ≤ T then
    some (pro_rata_alloc balances T)
  else none

/-- Insert into a strictly sorted list, dropping duplicates. -/
def insertSorted (x : Nat) : List Nat → List Nat
  | [] => [x]
  | y :: ys => if x < y then x :: y :: ys
               else if x = y then y :: ys
               else y :: insertSorted x ys

/-- `sorted(set(l))`: the strictly increasing enumeration of the members
of `l`. -/
def sortedUnique (l : List Nat) : List Nat := l.foldr insertSorted []

/-- `MerkleTree.combined_hash` on two present elements:
`keccak(b''.join(sorted([a, b])))`; sorting 32-byte strings byte-wise is
sorting their numeric values. -/
def combined_hash (H : Nat → Nat → Nat) (a b : Nat) : Nat :=
  H (min a b) (max a b)

/-- `MerkleTree.get_next_layer`: pair up consecutive elements; by
`zip_longest`, an unpaired trailing element meets `None` and
`combined_hash(a, None) = a`. -/
def get_next_layer (H : Nat → Nat → Nat) : List Nat → List Nat
  | a :: b :: rest => combined_hash H a b :: get_next_layer H rest
  | l => l

/-- `MerkleTree.get_layers` with explicit fuel (the `while` loop halves the
layer length each iteration, so `fuel = elements.length` always suffices). -/
def get_layers_fuel (H : Nat → Nat → Nat) : Nat → List Nat → List (List Nat)
  | 0, elements => [elements]
  | fuel + 1, elements =>
    if elements.length ≤ 1 then [elements]
    else elements :: get_layers_fuel H fuel (get_next_layer H elements)

/-- `MerkleTree.get_layers`. -/
def get_layers (H : Nat → Nat → Nat) (elements : List Nat) : List (List Nat) :=
  get_layers_fuel H elements.length elements

/-- `self.elements = sorted(set(web3.keccak(hexstr=el) for el in elements))`,
with `L` standing for the leaf hash. -/
def tree_elements (L : Nat → Nat) (input : List Nat) : List Nat :=
  sortedUnique (input.map L)

/-- `self.layers`. -/
def tree_layers (H : Nat → Nat → Nat) (L : Nat → Nat) (input : List Nat) : List (List Nat) :=
  get_layers H (tree_elements L input)

/-- `MerkleTree.root = self.layers[-1][0]`. -/
def tree_root (H : Nat → Nat → Nat) (L : Nat → Nat) (input : List Nat) : Nat :=
  ((tree_layers H L input).getLastD []).headD 0

/-- `pair_idx = idx + 1 if idx % 2 == 0 else idx - 1`. -/
def pair_idx (idx : Nat) : Nat := if idx % 2 = 0 then idx + 1 else idx - 1

/-- The layer walk of `MerkleTree.get_proof`: emit the sibling when its index
is in range, then continue with `idx //= 2` (the loop runs over every layer,
the root layer contributing nothing). -/
def get_proof_from (layers : List (List Nat)) (idx : Nat) : List Nat :=
  match layers with
  | [] => []
  | layer :: rest =>
    (if pair_idx idx < layer.length then [layer.getD (pair_idx idx) 0] else [])
      ++ get_proof_from rest (idx / 2)

/-- `MerkleTree.get_proof(el)`: hash the element, locate it in the sorted
element list, walk the layers. -/
def get_proof (H : Nat → Nat → Nat) (L : Nat → Nat) (input : List Nat) (el : Nat) : List Nat :=
  get_proof_from (tree_layers H L input) ((tree_elements L input).indexOf (L el))

/-- Net effect of one event on the balance of address `a` (proof device:
`applyLog b t a = b a + delta t a`). -/
def delta (t : Transfer) (a : Nat) : Int :=
  (if t.dst ≠ 0 ∧ a = t.dst then t.wad else 0)
    - (if t.src ≠ 0 ∧ a = t.src then t.wad else 0)

/-- Summed effect on address `a` of the events of `chain` with block number in
`[lo, hi]` (proof device). -/
def rangeDelta (chain : List (Nat × Transfer)) (a : Nat) (lo hi : Nat) : Int :=
  (chain.map (fun p => if lo ≤ p.1 ∧ p.1 ≤ hi then delta p.2 a else 0)).sum

/-! ### List arithmetic helpers -/

theorem sum_map_add {α : Type} (l : List α) (f g : α → Int) :
    (l.map (fun x => f x + g x)).sum = (l.map f).sum + (l.map g).sum := by
  induction l with
  | nil => simp
  | cons x xs ih => simp only [List.map_cons, List.sum_cons, ih]; ring

theorem sum_map_sub {α : Type} (l : List α) (f g : α → Int) :
    (l.map (fun x => f x - g x)).sum = (l.map f).sum - (l.map g).sum := by
  induction l with
  | nil => simp
  | cons x xs ih => simp only [List.map_cons, List.sum_cons, ih]; ring

theorem sum_nonneg_of_nonneg (l : List Int) (h : ∀ x ∈ l, 0 ≤ x) : 0 ≤ l.sum := by
  induction l with
  | nil => simp
  | cons x xs ih =>
    simp only [List.sum_cons]
    have h1 := h x (List.mem_cons_self x xs)
    have h2 := ih (fun y hy => h y (List.mem_cons_of_mem x hy))
    omega

theorem eq_zero_of_sum_eq_zero (l : List Int) (h : ∀ x ∈ l, 0 ≤ x)
    (hs : l.sum = 0) : ∀ x ∈ l, x = 0 := by
  induction l with
  | nil => simp
  | cons x xs ih =>
    intro y hy
    simp only [List.sum_cons] at hs
    have h1 := h x (List.mem_cons_self x xs)
    have h2 := sum_nonneg_of_nonneg xs (fun z hz => h z (List.mem_cons_of_mem x hz))
    rcases List.mem_cons.1 hy with rfl | hy2
    · omega
    · exact ih (fun z hz => h z (List.mem_cons_of_mem x hz)) (by omega) y hy2

theorem sum_ediv_le (l : List Int) (c : Int) (hc : 0 < c) :
    (l.map (fun a => a / c)).sum ≤ l.sum / c := by
  induction l with
  | nil => simp
  | cons x xs ih =>
    simp only [List.map_cons, List.sum_cons]
    have h1 : x / c + xs.sum / c ≤ (x + xs.sum) / c := by
      rw [Int.le_ediv_iff_mul_le hc, add_mul]
      exact add_le_add (Int.ediv_mul_le x (ne_of_gt hc))
        (Int.ediv_mul_le xs.sum (ne_of_gt hc))
    exact le_trans (add_le_add_left ih (x / c)) h1

theorem sum_dvd_ediv {α : Type} (l : List α) (f : α → Int) (c : Int)
    (h : ∀ x ∈ l, c ∣ f x) :
    (l.map (fun x => f x / c)).sum = (l.map f).sum / c := by
  induction l with
  | nil => simp
  | cons x xs ih =>
    simp only [List.map_cons, List.sum_cons]
    rw [ih (fun y hy => h y (List.mem_cons_of_mem x hy)),
      Int.add_ediv_of_dvd_left (h x (List.mem_cons_self x xs))]

theorem sum_filter_le_sum {α : Type} (l : List α) (f : α → Int) (q : α → Bool)
    (h : ∀ x ∈ l, 0 ≤ f x) :
    ((l.filter q).map f).sum ≤ (l.map f).sum := by
  induction l with
  | nil => simp
  | cons x xs ih =>
    have ih2 := ih (fun y hy => h y (List.mem_cons_of_mem x hy))
    have hfx := h x (List.mem_cons_self x xs)
    rw [List.filter_cons]
    cases hqx : q x
    · simp only [Bool.false_eq_true, if_false, List.map_cons, List.sum_cons]
      exact le_trans ih2 (by omega)
    · simp only [if_true, List.map_cons, List.sum_cons]
      exact add_le_add_left ih2 (f x)

/-- Core of the floor pro-rata arithmetic shared by `step_04` and `step_06`:
allocating `f x * T / c` (with exact division rounded down) over `l`. -/
theorem alloc_core {α : Type} (l : List α) (f : α → Int) (c T : Int)
    (hc : 0 < c) (hT : 0 ≤ T) (hsum : (l.map f).sum ≤ c) :
    (l.map (fun x => f x * T / c)).sum ≤ T ∧
      ((l.map (fun x => f x * T / c)).sum = T ↔
        (∀ x ∈ l, c ∣ f x * T) ∧ T * (l.map f).sum = T * c) := by
  have hc0 : c ≠ 0 := ne_of_gt hc
  have hfT : (l.map (fun x => f x * T)).sum = (l.map f).sum * T :=
    List.sum_map_mul_right l f T
  have hbound : (l.map (fun x => f x * T)).sum ≤ c * T := by
    rw [hfT]
    exact mul_le_mul_of_nonneg_right hsum hT
  have hle : (l.map (fun x => f x * T / c)).sum ≤ T := by
    have h1 := sum_ediv_le (l.map (fun x => f x * T)) c hc
    rw [List.map_map] at h1
    have h2 : (l.map (fun x => f x * T)).sum / c ≤ c * T / c :=
      Int.ediv_le_ediv hc hbound
    rw [Int.mul_ediv_cancel_left T hc0] at h2
    exact le_trans h1 h2
  refine ⟨hle, ?_, ?_⟩
  · intro hEq
    have hqc : (l.map (fun x => f x * T / c * c)).sum = T * c := by
      rw [List.sum_map_mul_right l (fun x => f x * T / c) c, hEq]
    have hsumle : (l.map (fun x => f x * T / c * c)).sum ≤
        (l.map (fun x => f x * T)).sum :=
      List.sum_le_sum (fun x _ => Int.ediv_mul_le (f x * T) hc0)
    have hfTeq : (l.map (fun x => f x * T)).sum = T * c := by
      have ha : T * c ≤ (l.map (fun x => f x * T)).sum := hqc ▸ hsumle
      have hb : (l.map (fun x => f x * T)).sum ≤ T * c := by
        calc (l.map (fun x => f x * T)).sum ≤ c * T := hbound
        _ = T * c := mul_comm c T
      linarith
    have hzero : ∀ x ∈ l, f x * T - f x * T / c * c = 0 := by
      intro x hx
      have hmem : f x * T - f x * T / c * c ∈
          l.map (fun y => f y * T - f y * T / c * c) :=
        List.mem_map_of_mem _ hx
      refine eq_zero_of_sum_eq_zero _ ?_ ?_ _ hmem
      · intro y hy
        obtain ⟨z, _, rfl⟩ := List.mem_map.1 hy
        have := Int.ediv_mul_le (f z * T) hc0
        omega
      · rw [sum_map_sub l (fun y => f y * T) (fun y => f y * T / c * c), hfTeq, hqc]
        ring
    constructor
    · intro x hx
      have h := hzero x hx
      exact ⟨f x * T / c, by linarith [mul_comm (f x * T / c) c]⟩
    · have : (l.map f).sum * T = T * c := by rw [← hfT]; exact hfTeq
      calc T * (l.map f).sum = (l.map f).sum * T := mul_comm _ _
      _ = T * c := this
  · rintro ⟨hdvd, hTsum⟩
    rw [sum_dvd_ediv l (fun x => f x * T) c hdvd, hfT]
    have h1 : (l.map f).sum * T = c * T := by
      calc (l.map f).sum * T = T * (l.map f).sum := mul_comm _ _
      _ = T * c := hTsum
      _ = c * T := mul_comm _ _
    rw [h1, Int.mul_ediv_cancel_left T hc0]

/-! ### Claims about `step_04` (IndirectHoldingResolver) -/

/-- C3 counterexample: a recognized pool whose internal ledger contains
negative folded share balances makes the derived sub-amounts sum to `4 > 2`
(truncation toward zero rounds the negative entries up), so the
`'no inflation ser'` assertion does fire. -/
theorem step_04_pool_overage_counterexample :
    step_04_pool [(1, -1), (2, -1), (3, -1), (4, 6)] 2 = none := by decide

/-- C3 (amended): for a recognized pool whose internal share balances are all
nonnegative (and whose known aggregate value is nonnegative), the derived
sub-amounts sum to at most the pool value, so the assertion never fires and
the replacement is recorded; the sum equals the pool value exactly when the
supply divides every `share * value`. -/
theorem step_04_pool_conservation (shares : List (Nat × Int)) (value : Int)
    (hs : ∀ p ∈ shares, 0 ≤ p.2) (hv : 0 ≤ value)
    (hsupply : (shares.map Prod.snd).sum ≠ 0) :
    step_04_pool shares value = some (some (pool_alloc shares value)) ∧
    ((pool_alloc shares value).map Prod.snd).sum ≤ value ∧
    (((pool_alloc shares value).map Prod.snd).sum = value ↔
      ∀ p ∈ shares, (shares.map Prod.snd).sum ∣ p.2 * value) := by
  have hcnn : 0 ≤ (shares.map Prod.snd).sum := by
    apply sum_nonneg_of_nonneg
    intro x hx
    obtain ⟨p, hp, rfl⟩ := List.mem_map.1 hx
    exact hs p hp
  have hc : 0 < (shares.map Prod.snd).sum := lt_of_le_of_ne hcnn (Ne.symm hsupply)
  have hmap : (pool_alloc shares value).map Prod.snd =
      shares.map (fun p => p.2 * value / (shares.map Prod.snd).sum) := by
    unfold pool_alloc
    rw [List.map_map]
    apply List.map_congr_left
    intro p hp
    exact Int.tdiv_eq_ediv (mul_nonneg (hs p hp) hv) hcnn
  have hcore := alloc_core shares Prod.snd ((shares.map Prod.snd).sum) value hc hv
    (le_refl _)
  have hbound : ((pool_alloc shares value).map Prod.snd).sum ≤ value := by
    rw [hmap]; exact hcore.1
  refine ⟨?_, hbound, ?_⟩
  · unfold step_04_pool
    rw [if_neg hsupply, if_pos hbound]
  · rw [hmap, hcore.2]
    constructor
    · rintro ⟨hdvd, _⟩; exact hdvd
    · intro hdvd; exact ⟨hdvd, rfl⟩

/-- Witness for C3 (amended) at a concrete pool. -/
theorem step_04_pool_conservation_witness :
    step_04_pool [(1, 1), (2, 3)] 8 = some (some (pool_alloc [(1, 1), (2, 3)] 8)) ∧
    ((pool_alloc [(1, 1), (2, 3)] 8).map Prod.snd).sum ≤ 8 ∧
    (((pool_alloc [(1, 1), (2, 3)] 8).map Prod.snd).sum = 8 ↔
      ∀ p ∈ [((1 : Nat), (1 : Int)), (2, 3)],
        (([((1 : Nat), (1 : Int)), (2, 3)].map Prod.snd).sum ∣ p.2 * 8)) :=
  step_04_pool_conservation [(1, 1), (2, 3)] 8 (by decide) (by decide) (by decide)

/-- C4 counterexample: for a negative internal share the derived sub-amount is
the truncation toward zero, `int(Fraction(-3, 2)) = -1`, not the floor
`-2 = floor(-3/2)`. -/
theorem step_04_pool_floor_counterexample :
    step_04_pool [(1, -1), (2, 3)] 3 = some (some [(1, -1), (2, 4)]) ∧
    Int.fdiv ((-1) * 3) (([((1 : Nat), (-1 : Int)), (2, 3)].map Prod.snd).sum) = -2 ∧
    ((-1 : Int) ≠ -2) := by
  refine ⟨by decide, by decide, by decide⟩

/-- C4 (amended): every recorded replacement is exactly the single-rounding
map `share * value / supply` rounded toward zero by `int(...)`, and that
rounding agrees with the floor whenever the share, the value and hence the
supply-weighted quotient are nonnegative. -/
theorem step_04_pool_formula (shares : List (Nat × Int)) (value : Int)
    (entries : List (Nat × Int))
    (h : step_04_pool shares value = some (some entries)) :
    entries = pool_alloc shares value ∧
    (0 ≤ value → (∀ p ∈ shares, 0 ≤ p.2) → ∀ p ∈ shares,
      Int.tdiv (p.2 * value) ((shares.map Prod.snd).sum) =
        Int.fdiv (p.2 * value) ((shares.map Prod.snd).sum)) := by
  unfold step_04_pool at h
  by_cases h0 : (shares.map Prod.snd).sum = 0
  · rw [if_pos h0] at h; exact absurd h (by simp)
  · rw [if_neg h0] at h
    by_cases h1 : ((pool_alloc shares value).map Prod.snd).sum ≤ value
    · rw [if_pos h1] at h
      have hent : entries = pool_alloc shares value := by
        injection h with h2; injection h2 with h3; exact h3.symm
      refine ⟨hent, ?_⟩
      intro hv hs p hp
      have hcnn : 0 ≤ (shares.map Prod.snd).sum := by
        apply sum_nonneg_of_nonneg
        intro x hx
        obtain ⟨q, hq, rfl⟩ := List.mem_map.1 hx
        exact hs q hq
      rw [Int.tdiv_eq_ediv (mul_nonneg (hs p hp) hv) hcnn,
        Int.fdiv_eq_ediv _ hcnn]
    · rw [if_neg h1] at h; exact absurd h (by simp)

/-- Witness for C4 (amended) at a concrete pool. -/
theorem step_04_pool_formula_witness :
    ([(1, 2), (2, 6)] : List (Nat × Int)) = pool_alloc [(1, 1), (2, 3)] 8 ∧
    (0 ≤ (8 : Int) → (∀ p ∈ [((1 : Nat), (1 : Int)), (2, 3)], 0 ≤ p.2) →
      ∀ p ∈ [((1 : Nat), (1 : Int)), (2, 3)],
        Int.tdiv (p.2 * 8) (([((1 : Nat), (1 : Int)), (2, 3)].map Prod.snd).sum) =
          Int.fdiv (p.2 * 8) (([((1 : Nat), (1 : Int)), (2, 3)].map Prod.snd).sum)) :=
  step_04_pool_formula [(1, 1), (2, 3)] 8 [(1, 2), (2, 6)] (by decide)

/-- C10: a recognized pool whose internal share ledger sums to zero is
skipped by `if not supply: continue` (`some none`: no replacement entry is
produced, so the pool keeps its aggregate value downstream), and the
`share / total_shares` comprehension is only ever reached with a nonzero
denominator. -/
theorem step_04_pool_zero_supply (shares : List (Nat × Int)) (value : Int) :
    ((shares.map Prod.snd).sum = 0 → step_04_pool shares value = some none) ∧
    (∀ entries, step_04_pool shares value = some (some entries) →
      (shares.map Prod.snd).sum ≠ 0) := by
  constructor
  · intro h; unfold step_04_pool; rw [if_pos h]
  · intro entries h h0
    unfold step_04_pool at h
    rw [if_pos h0] at h
    exact absurd h (by simp)

/-- Witness for C10 at a concrete zero-supply pool. -/
theorem step_04_pool_zero_supply_witness :
    step_04_pool [(1, 5), (2, -5)] 7 = some none :=
  (step_04_pool_zero_supply [(1, 5), (2, -5)] 7).1 (by decide)

/-! ### Claims about `step_06` (ProRataAllocator) -/

/-- C1 counterexample (the spec's own scenario from its section 8): holders
`{100, 200, 300}` ether with a `0.5` ether dust holder and `T = 600`.  The
code divides by the pre-filter total `600.5` ether and pays `99`, while the
claimed post-exclusion denominator `600` ether would pay
`floor(100e18 * 600 / 600e18) = 100`. -/
theorem step_06_denominator_counterexample :
    step_06 [(1, 100 * 10 ^ 18), (2, 200 * 10 ^ 18), (3, 300 * 10 ^ 18),
        (4, 5 * 10 ^ 17)] 600 = some [(1, 99), (2, 199), (3, 299)] ∧
    Int.tdiv ((100 * 10 ^ 18) * 600) ((100 + 200 + 300) * 10 ^ 18) = 100 ∧
    ((99 : Int) ≠ 100) := by
  refine ⟨by decide, by decide, by decide⟩

/-- C1 (amended): each holder surviving the dust filter receives
`int(Fraction(v, S_pre) * T)` where `S_pre` is the total of the *unfiltered*
table (a single truncation of the exact rational, toward zero; for the
nonnegative tables of the pipeline this is the floor). -/
theorem step_06_formula (balances : List (Nat × Int)) (T : Int)
    (m : List (Nat × Int)) (h : step_06 balances T = some m) :
    m = pro_rata_alloc balances T ∧
    (∀ q ∈ m, ∃ v : Int, (q.1, v) ∈ balances ∧ wei_ether ≤ v ∧
      q.2 = Int.tdiv (v * T) ((balances.map Prod.snd).sum)) ∧
    (∀ p ∈ balances, wei_ether ≤ p.2 →
      (p.1, Int.tdiv (p.2 * T) ((balances.map Prod.snd).sum)) ∈ m) := by
  unfold step_06 at h
  by_cases h0 : (balances.filter (fun p => decide (wei_ether ≤ p.2)) ≠ [] ∧
      (balances.map Prod.snd).sum = 0)
  · rw [if_pos h0] at h; exact absurd h (by simp)
  · rw [if_neg h0] at h
    by_cases h1 : ((pro_rata_alloc balances T).map Prod.snd).sum ≤ T
    · rw [if_pos h1] at h
      have hm : m = pro_rata_alloc balances T := by
        injection h with h2; exact h2.symm
      refine ⟨hm, ?_, ?_⟩
      · intro q hq
        rw [hm] at hq
        unfold pro_rata_alloc at hq
        obtain ⟨p, hp, rfl⟩ := List.mem_map.1 hq
        have hp2 := List.mem_filter.1 hp
        refine ⟨p.2, ?_, of_decide_eq_true hp2.2, rfl⟩
        have hpe : (p.1, p.2) = p := rfl
        rw [hpe]
        exact hp2.1
      · intro p hp hwei
        rw [hm]
        unfold pro_rata_alloc
        apply List.mem_map_of_mem
        exact List.mem_filter.2 ⟨hp, decide_eq_true hwei⟩
    · rw [if_neg h1] at h; exact absurd h (by simp)

/-- Witness for C1 (amended) at a concrete table. -/
theorem step_06_formula_witness :
    ([(1, 10)] : List (Nat × Int)) = pro_rata_alloc [(1, 2 * 10 ^ 18)] 10 ∧
    (∀ q ∈ ([(1, 10)] : List (Nat × Int)), ∃ v : Int,
      (q.1, v) ∈ ([(1, 2 * 10 ^ 18)] : List (Nat × Int)) ∧ wei_ether ≤ v ∧
      q.2 = Int.tdiv (v * 10) (([((1 : Nat), (2 * 10 ^ 18 : Int))].map Prod.snd).sum)) ∧
    (∀ p ∈ ([(1, 2 * 10 ^ 18)] : List (Nat × Int)), wei_ether ≤ p.2 →
      (p.1, Int.tdiv (p.2 * 10) (([((1 : Nat), (2 * 10 ^ 18 : Int))].map Prod.snd).sum)) ∈
        ([(1, 10)] : List (Nat × Int))) :=
  step_06_formula [(1, 2 * 10 ^ 18)] 10 [(1, 10)] (by decide)

/-- C2 counterexample: table `{2 ether, 0.5 ether}` with `T = 10^19`.  The
sole remaining holder's value divides `T` evenly (in both readings: `2e18`
divides `10^19`, and the allocation `2e18 * 10^19 / 2.5e18` is exact), yet
the allocated sum `8e18` is strictly below `T` because the excluded dust
still sits in the denominator. -/
theorem step_06_equality_counterexample :
    step_06 [(1, 2 * 10 ^ 18), (2, 5 * 10 ^ 17)] (10 ^ 19) =
      some [(1, 8 * 10 ^ 18)] ∧
    ((2 * 10 ^ 18 : Int) ∣ 10 ^ 19) ∧
    ((2 * 10 ^ 18 + 5 * 10 ^ 17 : Int) ∣ (2 * 10 ^ 18) * 10 ^ 19) ∧
    ((8 * 10 ^ 18 : Int) ≠ 10 ^ 19) := by
  refine ⟨by decide, by decide, by decide, by decide⟩

/-- C2 (amended): for every table of nonnegative values with positive total
and every positive `T`, `step_06` succeeds, the allocations sum to at most
`T`, and they sum to exactly `T` iff no value was lost to the dust filter
(the remaining values sum to the full pre-filter total `S`) and `S` divides
`v * T` for every remaining holder. -/
theorem step_06_allocation_bound (balances : List (Nat × Int)) (T : Int)
    (hv : ∀ p ∈ balances, 0 ≤ p.2) (hT : 0 < T)
    (htot : 0 < (balances.map Prod.snd).sum) :
    step_06 balances T = some (pro_rata_alloc balances T) ∧
    ((pro_rata_alloc balances T).map Prod.snd).sum ≤ T ∧
    (((pro_rata_alloc balances T).map Prod.snd).sum = T ↔
      ((balances.filter (fun p => decide (wei_ether ≤ p.2))).map Prod.snd).sum =
          (balances.map Prod.snd).sum ∧
      ∀ p ∈ balances.filter (fun p => decide (wei_ether ≤ p.2)),
        (balances.map Prod.snd).sum ∣ p.2 * T) := by
  have hkv : ∀ p ∈ balances.filter (fun p => decide (wei_ether ≤ p.2)), 0 ≤ p.2 := by
    intro p hp
    have h2 := List.mem_filter.1 hp
    have h3 := of_decide_eq_true h2.2
    have hw : (0 : Int) < wei_ether := by norm_num [wei_ether]
    linarith
  have hmap : (pro_rata_alloc balances T).map Prod.snd =
      (balances.filter (fun p => decide (wei_ether ≤ p.2))).map
        (fun p => p.2 * T / (balances.map Prod.snd).sum) := by
    unfold pro_rata_alloc
    rw [List.map_map]
    apply List.map_congr_left
    intro p hp
    exact Int.tdiv_eq_ediv (mul_nonneg (hkv p hp) (le_of_lt hT)) (le_of_lt htot)
  have hksum : ((balances.filter (fun p => decide (wei_ether ≤ p.2))).map Prod.snd).sum ≤
      (balances.map Prod.snd).sum :=
    sum_filter_le_sum balances Prod.snd _ hv
  have hcore := alloc_core (balances.filter (fun p => decide (wei_ether ≤ p.2)))
    Prod.snd ((balances.map Prod.snd).sum) T htot (le_of_lt hT) hksum
  have hbound : ((pro_rata_alloc balances T).map Prod.snd).sum ≤ T := by
    rw [hmap]; exact hcore.1
  refine ⟨?_, hbound, ?_⟩
  · unfold step_06
    rw [if_neg (by push_neg; intro _; exact ne_of_gt htot), if_pos hbound]
  · rw [hmap, hcore.2]
    constructor
    · rintro ⟨hdvd, hTs⟩
      exact ⟨mul_left_cancel₀ (ne_of_gt hT) hTs, hdvd⟩
    · rintro ⟨hsumeq, hdvd⟩
      exact ⟨hdvd, by rw [hsumeq]⟩

/-- Witness for C2 (amended) at a concrete table. -/
theorem step_06_allocation_bound_witness :
    step_06 [(1, 2 * 10 ^ 18)] 10 = some (pro_rata_alloc [(1, 2 * 10 ^ 18)] 10) ∧
    ((pro_rata_alloc [(1, 2 * 10 ^ 18)] 10).map Prod.snd).sum ≤ 10 ∧
    (((pro_rata_alloc [(1, 2 * 10 ^ 18)] 10).map Prod.snd).sum = 10 ↔
      (([((1 : Nat), (2 * 10 ^ 18 : Int))].filter
          (fun p => decide (wei_ether ≤ p.2))).map Prod.snd).sum =
          (([((1 : Nat), (2 * 10 ^ 18 : Int))]).map Prod.snd).sum ∧
      ∀ p ∈ ([((1 : Nat), (2 * 10 ^ 18 : Int))]).filter
          (fun p => decide (wei_ether ≤ p.2)),
        (([((1 : Nat), (2 * 10 ^ 18 : Int))]).map Prod.snd).sum ∣ p.2 * 10) :=
  step_06_allocation_bound [(1, 2 * 10 ^ 18)] 10 (by decide) (by decide) (by decide)

/-! ### Claims about `step_01` (LedgerAggregator) -/

theorem applyLog_apply (b : Nat → Int) (t : Transfer) (a : Nat) :
    applyLog b t a = b a + delta t a := by
  simp only [applyLog, delta]
  split_ifs <;> ring

theorem transfers_fold_apply (logs : List Transfer) (b : Nat → Int) (a : Nat) :
    (logs.foldl applyLog b) a = b a + (logs.map (fun t => delta t a)).sum := by
  induction logs generalizing b with
  | nil => simp
  | cons t ts ih =>
    simp only [List.foldl_cons, List.map_cons, List.sum_cons]
    rw [ih (applyLog b t), applyLog_apply]
    ring

theorem transfers_to_balances_apply (logs : List Transfer) (a : Nat) :
    transfers_to_balances logs a = (logs.map (fun t => delta t a)).sum := by
  unfold transfers_to_balances
  rw [transfers_fold_apply]
  simp

theorem delta_eq_zero (t : Transfer) (a : Nat) (h1 : a ≠ t.src) (h2 : a ≠ t.dst) :
    delta t a = 0 := by
  simp [delta, h1, h2]

theorem balance_zero_of_not_holder (logs : List Transfer) (a : Nat)
    (h : a ∉ holders logs) : transfers_to_balances logs a = 0 := by
  rw [transfers_to_balances_apply]
  induction logs with
  | nil => simp
  | cons t ts ih =>
    simp only [holders, List.mem_cons, not_or] at h
    simp only [List.map_cons, List.sum_cons]
    rw [delta_eq_zero t a h.1 h.2.1, ih h.2.2]
    ring

/-- C8: if folding an asset's events leaves any holder with a negative
balance, `step_01` aborts (the stage artifact is never produced). -/
theorem step_01_negative_aborts (tokenLogs : List (List Transfer))
    (logs : List Transfer) (a : Nat) (hmem : logs ∈ tokenLogs)
    (hneg : transfers_to_balances logs a < 0) :
    step_01 tokenLogs = none := by
  have hcheck : step_01_check logs = false := by
    unfold step_01_check
    have ha : a ∈ holders logs := by
      by_contra hc
      rw [balance_zero_of_not_holder logs a hc] at hneg
      omega
    have hvmem : transfers_to_balances logs a ∈ balanceValues logs := by
      unfold balanceValues
      apply List.mem_filter.2
      refine ⟨List.mem_map_of_mem _ (List.mem_dedup.2 ha), ?_⟩
      simp only [Bool.not_eq_true', beq_eq_false_iff_ne, ne_eq]
      omega
    have hall : (balanceValues logs).all (fun v => decide (0 ≤ v)) = false := by
      rw [List.all_eq_false]
      exact ⟨_, hvmem, by simp; omega⟩
    rw [hall, Bool.and_false]
  have hfail : tokenLogs.all step_01_check = false := by
    rw [List.all_eq_false]
    exact ⟨logs, hmem, by rw [hcheck]; exact Bool.false_ne_true⟩
  unfold step_01
  rw [hfail]
  simp

/-- Witness for C8: a single transfer out of a fresh account folds to a
negative balance and aborts the stage. -/
theorem step_01_negative_aborts_witness :
    step_01 [[⟨1, 2, 5⟩]] = none :=
  step_01_negative_aborts [[⟨1, 2, 5⟩]] [⟨1, 2, 5⟩] 1 (by decide) (by decide)

/-! ### Claim C9: batching of the event queries -/

theorem getLogs_delta_sum (chain : List (Nat × Transfer)) (a lo hi : Nat) :
    ((getLogs chain lo hi).map (fun t => delta t a)).sum = rangeDelta chain a lo hi := by
  unfold getLogs rangeDelta
  induction chain with
  | nil => simp
  | cons p ps ih =>
    by_cases h : lo ≤ p.1 ∧ p.1 ≤ hi
    · rw [List.filter_cons, if_pos (by simpa using h), List.map_cons, List.map_cons,
        List.sum_cons, List.map_cons, List.sum_cons, if_pos h, ih]
    · rw [List.filter_cons, if_neg (by simpa using h), List.map_cons,
        List.sum_cons, if_neg h, ih]
      ring

theorem batched_fold_apply (chain : List (Nat × Transfer)) (hi step : Nat)
    (starts : List Nat) (b : Nat → Int) (a : Nat) :
    (starts.foldl
      (fun bal start => (getLogs chain start (min (start + (step - 1)) hi)).foldl applyLog bal)
      b) a
      = b a + (starts.map (fun s => rangeDelta chain a s (min (s + (step - 1)) hi))).sum := by
  induction starts generalizing b with
  | nil => simp
  | cons s ss ih =>
    simp only [List.foldl_cons, List.map_cons, List.sum_cons]
    rw [ih, transfers_fold_apply, getLogs_delta_sum]
    ring

theorem sum_sum_comm {α β : Type} (l1 : List α) (l2 : List β) (g : α → β → Int) :
    (l1.map (fun x => (l2.map (g x)).sum)).sum =
      (l2.map (fun y => (l1.map (fun x => g x y)).sum)).sum := by
  induction l1 with
  | nil => simp
  | cons x xs ih =>
    simp only [List.map_cons, List.sum_cons, ih]
    rw [sum_map_add l2 (fun y => g x y) (fun y => (xs.map (fun z => g z y)).sum)]

/-- Exactly one batch of `range(lo, lo + n*step, step)` covers each block of
`[lo, hi]` once the batches reach past `hi`; blocks outside `[lo, hi]` are
covered by none. -/
theorem batch_cover (blk hi step : Nat) (d : Int) (hstep : 0 < step) :
    ∀ (n lo : Nat), hi + 1 ≤ lo + n * step →
    ((List.range n).map (fun k =>
      if lo + k * step ≤ blk ∧ blk ≤ min (lo + k * step + (step - 1)) hi then d else 0)).sum
    = if lo ≤ blk ∧ blk ≤ hi then d else 0 := by
  intro n
  induction n with
  | zero =>
    intro lo hcov
    simp only [Nat.zero_mul, Nat.add_zero] at hcov
    simp only [List.range_zero, List.map_nil, List.sum_nil]
    rw [if_neg (by omega)]
  | succ n ih =>
    intro lo hcov
    rw [List.range_succ_eq_map]
    simp only [List.map_cons, List.map_map, List.sum_cons]
    have hfun : ((fun k =>
        if lo + k * step ≤ blk ∧ blk ≤ min (lo + k * step + (step - 1)) hi then d else 0)
          ∘ Nat.succ)
        = (fun k => if (lo + step) + k * step ≤ blk ∧
            blk ≤ min ((lo + step) + k * step + (step - 1)) hi then d else 0) := by
      funext k
      have he : lo + (k + 1) * step = (lo + step) + k * step := by ring
      simp only [Function.comp]
      rw [show Nat.succ k = k + 1 from rfl, he]
    rw [hfun]
    have h2 : lo + (n + 1) * step = (lo + step) + n * step := by ring
    rw [h2] at hcov
    rw [ih (lo + step) hcov]
    simp only [Nat.zero_mul, Nat.add_zero]
    split_ifs <;> omega

/-- When `step` does not divide `m`, `ceil(m / step)` batches of width `step`
reach strictly past `m`. -/
theorem ceil_batches_cover (m step : Nat) (hstep : 0 < step) (hnd : ¬ step ∣ m) :
    m + 1 ≤ ((m + step - 1) / step) * step := by
  have hr : m % step ≠ 0 := fun h => hnd (Nat.dvd_iff_mod_eq_zero.2 h)
  have hdm := Nat.div_add_mod m step
  have hrlt : m % step < step := Nat.mod_lt m hstep
  obtain ⟨P, hP⟩ : ∃ P, step * (m / step) = P := ⟨_, rfl⟩
  rw [hP] at hdm
  have hmul : (m / step + 1) * step = P + step := by rw [← hP]; ring
  have hm1 : m + step - 1 = (m % step - 1) + (m / step + 1) * step := by
    rw [hmul]; omega
  have hdiv : (m + step - 1) / step = m / step + 1 := by
    rw [hm1, Nat.add_mul_div_right _ _ hstep, Nat.div_eq_of_lt (by omega)]
    omega
  rw [hdiv, hmul]
  omega

/-- C9 counterexample: the claimed batch-size independence fails for batch
sizes dividing `SNAPSHOT_BLOCK - START_BLOCK = 3760` (such as `940`): an
event in the snapshot block itself is missed by every batch, while the
single-range query sees it.  (The code's batch size `1000` does not divide
`3760`, see the amended theorem.) -/
theorem batching_counterexample :
    transfers_to_balances_batched [(SNAPSHOT_BLOCK, ⟨1, 2, 5⟩)]
        START_BLOCK SNAPSHOT_BLOCK 940 2 = 0 ∧
    transfers_to_balances
        (getLogs [(SNAPSHOT_BLOCK, ⟨1, 2, 5⟩)] START_BLOCK SNAPSHOT_BLOCK) 2 = 5 ∧
    ((940 : Nat) ∣ SNAPSHOT_BLOCK - START_BLOCK) ∧
    ((0 : Int) ≠ 5) := by
  refine ⟨by decide, by decide, by decide, by decide⟩

/-- C9 (amended): the batched fold equals the single-range fold for every
chain whenever the batch size does not divide `hi - lo` — in particular for
the code's fixed batch size `1000` over
`[START_BLOCK, SNAPSHOT_BLOCK]` (`1000` does not divide `3760`). -/
theorem batching_independent :
    (∀ (chain : List (Nat × Transfer)) (lo hi step : Nat), 0 < step →
      ¬ step ∣ (hi - lo) →
      transfers_to_balances_batched chain lo hi step =
        transfers_to_balances (getLogs chain lo hi)) ∧
    (∀ chain : List (Nat × Transfer),
      transfers_to_balances_batched chain START_BLOCK SNAPSHOT_BLOCK 1000 =
        transfers_to_balances (getLogs chain START_BLOCK SNAPSHOT_BLOCK)) := by
  have main : ∀ (chain : List (Nat × Transfer)) (lo hi step : Nat), 0 < step →
      ¬ step ∣ (hi - lo) →
      transfers_to_balances_batched chain lo hi step =
        transfers_to_balances (getLogs chain lo hi) := by
    intro chain lo hi step hstep hnd
    have hlole : lo ≤ hi := by
      by_contra hcon
      push_neg at hcon
      have h0 : hi - lo = 0 := by omega
      exact hnd (by rw [h0]; exact dvd_zero step)
    have hcov : hi + 1 ≤ lo + ((hi - lo + step - 1) / step) * step := by
      have h1 := ceil_batches_cover (hi - lo) step hstep hnd
      obtain ⟨P, hP⟩ : ∃ P, ((hi - lo + step - 1) / step) * step = P := ⟨_, rfl⟩
      rw [hP] at h1 ⊢
      omega
    funext a
    unfold transfers_to_balances_batched batchStarts
    rw [batched_fold_apply, List.map_map, transfers_to_balances_apply, getLogs_delta_sum]
    have hcomp : ((fun s => rangeDelta chain a s (min (s + (step - 1)) hi))
          ∘ fun k => lo + k * step)
        = fun k => (chain.map (fun p =>
            if lo + k * step ≤ p.1 ∧ p.1 ≤ min (lo + k * step + (step - 1)) hi
            then delta p.2 a else 0)).sum := rfl
    rw [hcomp, sum_sum_comm (List.range ((hi - lo + step - 1) / step)) chain
      (fun k p => if lo + k * step ≤ p.1 ∧ p.1 ≤ min (lo + k * step + (step - 1)) hi
        then delta p.2 a else 0)]
    unfold rangeDelta
    rw [zero_add]
    apply congrArg
    apply List.map_congr_left
    intro p _
    exact batch_cover p.1 hi step (delta p.2 a) hstep ((hi - lo + step - 1) / step) lo hcov
  exact ⟨main, fun chain => main chain START_BLOCK SNAPSHOT_BLOCK 1000 (by decide) (by decide)⟩

/-! ### The sorted element set of the Merkle tree -/

theorem getLastD_congr {α : Type} (l : List α) (h : l ≠ []) (d1 d2 : α) :
    l.getLastD d1 = l.getLastD d2 := by
  rcases l with _ | ⟨a, as⟩
  · exact absurd rfl h
  · rw [List.getLastD_cons, List.getLastD_cons]

theorem mem_insertSorted (a x : Nat) (l : List Nat) :
    a ∈ insertSorted x l ↔ a = x ∨ a ∈ l := by
  induction l with
  | nil => simp [insertSorted]
  | cons y ys ih =>
    unfold insertSorted
    by_cases h1 : x < y
    · rw [if_pos h1]
      simp [List.mem_cons]
    · rw [if_neg h1]
      by_cases h2 : x = y
      · subst h2
        rw [if_pos rfl]
        simp only [List.mem_cons]
        tauto
      · rw [if_neg h2]
        simp only [List.mem_cons, ih]
        tauto

theorem sorted_insertSorted (x : Nat) (l : List Nat) (h : l.Sorted (· < ·)) :
    (insertSorted x l).Sorted (· < ·) := by
  induction l with
  | nil => simp [insertSorted]
  | cons y ys ih =>
    rw [List.sorted_cons] at h
    obtain ⟨hy, hys⟩ := h
    unfold insertSorted
    by_cases h1 : x < y
    · rw [if_pos h1, List.sorted_cons]
      refine ⟨?_, List.sorted_cons.2 ⟨hy, hys⟩⟩
      intro b hb
      rcases List.mem_cons.1 hb with rfl | hb2
      · exact h1
      · exact lt_trans h1 (hy b hb2)
    · rw [if_neg h1]
      by_cases h2 : x = y
      · rw [if_pos h2, List.sorted_cons]
        exact ⟨hy, hys⟩
      · rw [if_neg h2, List.sorted_cons]
        refine ⟨?_, ih hys⟩
        intro b hb
        rcases (mem_insertSorted b x ys).1 hb with rfl | hb2
        · omega
        · exact hy b hb2

theorem sortedUnique_sorted (l : List Nat) : (sortedUnique l).Sorted (· < ·) := by
  induction l with
  | nil => simp [sortedUnique]
  | cons x xs ih => exact sorted_insertSorted x (sortedUnique xs) ih

theorem mem_sortedUnique (a : Nat) (l : List Nat) :
    a ∈ sortedUnique l ↔ a ∈ l := by
  induction l with
  | nil => simp [sortedUnique]
  | cons x xs ih =>
    show a ∈ insertSorted x (sortedUnique xs) ↔ _
    rw [mem_insertSorted, ih]
    simp [List.mem_cons]

/-- Two lists with the same members canonicalise to the same sorted
duplicate-free list: this is what makes the tree independent of input order. -/
theorem sortedUnique_eq_of_mem_iff (l1 l2 : List Nat)
    (h : ∀ x, x ∈ l1 ↔ x ∈ l2) :
    sortedUnique l1 = sortedUnique l2 := by
  have s1 := sortedUnique_sorted l1
  have s2 := sortedUnique_sorted l2
  have hperm : List.Perm (sortedUnique l1) (sortedUnique l2) := by
    rw [List.perm_ext_iff_of_nodup s1.nodup s2.nodup]
    intro a
    rw [mem_sortedUnique, mem_sortedUnique]
    exact h a
  exact List.eq_of_perm_of_sorted hperm (s1.imp le_of_lt) (s2.imp le_of_lt)

/-! ### Merkle layer structure -/

theorem combined_hash_comm (H : Nat → Nat → Nat) (a b : Nat) :
    combined_hash H a b = combined_hash H b a := by
  unfold combined_hash
  rw [min_comm, max_comm]

theorem get_next_layer_length (H : Nat → Nat → Nat) :
    ∀ (n : Nat) (l : List Nat), l.length ≤ n →
      (get_next_layer H l).length = (l.length + 1) / 2 := by
  intro n
  induction n with
  | zero =>
    intro l hl
    have h0 : l = [] := List.eq_nil_of_length_eq_zero (by omega)
    subst h0
    simp [get_next_layer]
  | succ n ih =>
    intro l hl
    rcases l with _ | ⟨a, _ | ⟨b, rest⟩⟩
    · simp [get_next_layer]
    · simp [get_next_layer]
    · have h1 : rest.length ≤ n := by
        simp only [List.length_cons] at hl
        omega
      rw [show get_next_layer H (a :: b :: rest) =
        combined_hash H a b :: get_next_layer H rest from rfl]
      simp only [List.length_cons]
      rw [ih rest h1]
      omega

theorem get_next_layer_length' (H : Nat → Nat → Nat) (l : List Nat) :
    (get_next_layer H l).length = (l.length + 1) / 2 :=
  get_next_layer_length H l.length l (le_refl _)

/-- C7: a layer with an odd element count pairs up its even prefix and
promotes the unpaired final element unchanged (same hash, not duplicated,
not re-hashed). -/
theorem next_layer_odd_carry (H : Nat → Nat → Nat) (l : List Nat)
    (h : l.length % 2 = 1) :
    get_next_layer H l = get_next_layer H l.dropLast ++ [l.getLastD 0] := by
  suffices haux : ∀ (n : Nat) (l : List Nat), l.length ≤ n → l.length % 2 = 1 →
      get_next_layer H l = get_next_layer H l.dropLast ++ [l.getLastD 0] from
    haux l.length l (le_refl _) h
  intro n
  induction n with
  | zero =>
    intro l hl hodd
    have h0 : l = [] := List.eq_nil_of_length_eq_zero (by omega)
    subst h0
    simp at hodd
  | succ n ih =>
    intro l hl hodd
    rcases l with _ | ⟨a, _ | ⟨b, rest⟩⟩
    · simp at hodd
    · rfl
    · rcases rest with _ | ⟨c, cs⟩
      · simp at hodd
      · have h1 : (c :: cs).length ≤ n := by
          simp only [List.length_cons] at hl
          simp only [List.length_cons]
          omega
        have h2 : (c :: cs).length % 2 = 1 := by
          simp only [List.length_cons] at hodd ⊢
          omega
        have hihr := ih (c :: cs) h1 h2
        rw [show get_next_layer H (a :: b :: c :: cs) =
          combined_hash H a b :: get_next_layer H (c :: cs) from rfl]
        rw [hihr]
        rw [show (a :: b :: c :: cs).dropLast = a :: b :: (c :: cs).dropLast by
          rw [List.dropLast_cons₂, List.dropLast_cons₂]]
        rw [show get_next_layer H (a :: b :: (c :: cs).dropLast) =
          combined_hash H a b :: get_next_layer H ((c :: cs).dropLast) from rfl]
        rw [show (a :: b :: c :: cs).getLastD 0 = (c :: cs).getLastD 0 by
          rw [List.getLastD_cons, List.getLastD_cons]
          exact getLastD_congr (c :: cs) (by simp) b 0]
        rfl

/-- Witness for C7 on a concrete three-element layer. -/
theorem next_layer_odd_carry_witness :
    get_next_layer (fun a b => a + 2 * b) [4, 7, 9] =
      get_next_layer (fun a b => a + 2 * b) ([4, 7, 9].dropLast) ++
        [[4, 7, 9].getLastD 0] :=
  next_layer_odd_carry (fun a b => a + 2 * b) [4, 7, 9] (by decide)

/-- Position `idx/2` of the next layer holds the hash of position `idx`
combined with its sibling, or position `idx` itself when the sibling index is
out of range. -/
theorem get_next_layer_getD (H : Nat → Nat → Nat) :
    ∀ (n : Nat) (l : List Nat) (idx : Nat), l.length ≤ n → idx < l.length →
      (get_next_layer H l).getD (idx / 2) 0 =
        if pair_idx idx < l.length
        then combined_hash H (l.getD idx 0) (l.getD (pair_idx idx) 0)
        else l.getD idx 0 := by
  intro n
  induction n with
  | zero =>
    intro l idx hl hidx
    omega
  | succ n ih =>
    intro l idx hl hidx
    rcases l with _ | ⟨a, _ | ⟨b, rest⟩⟩
    · simp at hidx
    · have h0 : idx = 0 := by
        simp only [List.length_cons, List.length_nil] at hidx
        omega
      subst h0
      rw [show get_next_layer H [a] = [a] from rfl]
      simp [pair_idx]
    · rcases idx with _ | (_ | k)
      · rw [show get_next_layer H (a :: b :: rest) =
          combined_hash H a b :: get_next_layer H rest from rfl]
        rw [show (0 : Nat) / 2 = 0 from rfl, List.getD_cons_zero]
        rw [if_pos (by simp [pair_idx])]
        rfl
      · rw [show get_next_layer H (a :: b :: rest) =
          combined_hash H a b :: get_next_layer H rest from rfl]
        rw [show (1 : Nat) / 2 = 0 from rfl, List.getD_cons_zero]
        rw [if_pos (by simp [pair_idx])]
        rw [show pair_idx 1 = 0 from rfl]
        rw [List.getD_cons_succ, List.getD_cons_zero, List.getD_cons_zero]
        exact combined_hash_comm H a b
      · have h1 : rest.length ≤ n := by
          simp only [List.length_cons] at hl
          omega
        have h2 : k < rest.length := by
          simp only [List.length_cons] at hidx
          omega
        have ihr := ih rest k h1 h2
        rw [show get_next_layer H (a :: b :: rest) =
          combined_hash H a b :: get_next_layer H rest from rfl]
        have hdiv : (k + 1 + 1) / 2 = k / 2 + 1 := by omega
        rw [hdiv, List.getD_cons_succ, ihr]
        have hpi : pair_idx (k + 1 + 1) = pair_idx k + 2 := by
          unfold pair_idx
          by_cases hk : k % 2 = 0
          · rw [if_pos hk, if_pos (by omega)]
          · rw [if_neg hk, if_neg (by omega)]
            omega
        rw [hpi]
        simp only [List.getD_cons_succ, List.length_cons]
        by_cases hc : pair_idx k < rest.length
        · rw [if_pos hc, if_pos (by omega)]
        · rw [if_neg hc, if_neg (by omega)]

theorem get_layers_fuel_ne_nil (H : Nat → Nat → Nat) (fuel : Nat) (l : List Nat) :
    get_layers_fuel H fuel l ≠ [] := by
  cases fuel with
  | zero => simp [get_layers_fuel]
  | succ n =>
    unfold get_layers_fuel
    by_cases h : l.length ≤ 1
    · rw [if_pos h]; simp
    · rw [if_neg h]; simp

/-- Walking the proof layers from position `idx` of the bottom layer
reproduces the single element of the top layer. -/
theorem merkle_walk (H : Nat → Nat → Nat) :
    ∀ (fuel : Nat) (l : List Nat) (idx : Nat), idx < l.length → l.length ≤ fuel + 1 →
      List.foldl (combined_hash H) (l.getD idx 0)
          (get_proof_from (get_layers_fuel H fuel l) idx)
        = ((get_layers_fuel H fuel l).getLastD []).headD 0 := by
  intro fuel
  induction fuel with
  | zero =>
    intro l idx hidx hl
    have hlen : l.length = 1 := by omega
    obtain ⟨a, rfl⟩ := List.length_eq_one.1 hlen
    have h0 : idx = 0 := by
      simp only [List.length_cons, List.length_nil] at hidx
      omega
    subst h0
    rfl
  | succ n ih =>
    intro l idx hidx hl
    by_cases hone : l.length ≤ 1
    · have hlen : l.length = 1 := by omega
      obtain ⟨a, rfl⟩ := List.length_eq_one.1 hlen
      have h0 : idx = 0 := by
        simp only [List.length_cons, List.length_nil] at hidx
        omega
      subst h0
      rw [show get_layers_fuel H (n + 1) [a] = [[a]] by
        unfold get_layers_fuel
        rw [if_pos (by simp)]]
      rfl
    · have hunfold : get_layers_fuel H (n + 1) l =
          l :: get_layers_fuel H n (get_next_layer H l) := by
        unfold get_layers_fuel
        rw [if_neg hone]
        cases n <;> rfl
      rw [hunfold]
      rw [show get_proof_from (l :: get_layers_fuel H n (get_next_layer H l)) idx =
          (if pair_idx idx < l.length then [l.getD (pair_idx idx) 0] else [])
            ++ get_proof_from (get_layers_fuel H n (get_next_layer H l)) (idx / 2)
          from rfl]
      rw [List.foldl_append]
      have hstep : List.foldl (combined_hash H) (l.getD idx 0)
          (if pair_idx idx < l.length then [l.getD (pair_idx idx) 0] else [])
          = (get_next_layer H l).getD (idx / 2) 0 := by
        rw [get_next_layer_getD H l.length l idx (le_refl _) hidx]
        by_cases hc : pair_idx idx < l.length
        · rw [if_pos hc, if_pos hc]
          rfl
        · rw [if_neg hc, if_neg hc]
          rfl
      rw [hstep]
      have hlen2 : (get_next_layer H l).length = (l.length + 1) / 2 :=
        get_next_layer_length' H l
      have hidx2 : idx / 2 < (get_next_layer H l).length := by
        rw [hlen2]; omega
      have hfuel2 : (get_next_layer H l).length ≤ n + 1 := by
        rw [hlen2]
        push_neg at hone
        omega
      rw [ih (get_next_layer H l) (idx / 2) hidx2 hfuel2]
      rw [List.getLastD_cons]
      rw [getLastD_congr (get_layers_fuel H n (get_next_layer H l))
        (get_layers_fuel_ne_nil H n (get_next_layer H l)) l []]

/-- C5: walking a generated proof from the leaf hash — at each step hashing
the sorted pair of the running hash and the emitted sibling, and passing the
running hash through where no sibling was emitted — reproduces the root. -/
theorem merkle_proof_sound (H : Nat → Nat → Nat) (L : Nat → Nat)
    (input : List Nat) (el : Nat) (hmem : el ∈ input) :
    List.foldl (combined_hash H) (L el) (get_proof H L input el) =
      tree_root H L input := by
  have hmem2 : L el ∈ tree_elements L input := by
    unfold tree_elements
    rw [mem_sortedUnique]
    exact List.mem_map_of_mem L hmem
  have hidx : (tree_elements L input).indexOf (L el) <
      (tree_elements L input).length :=
    List.indexOf_lt_length.2 hmem2
  have hwalk := merkle_walk H (tree_elements L input).length (tree_elements L input)
    ((tree_elements L input).indexOf (L el)) hidx (by omega)
  have hgetd : (tree_elements L input).getD
      ((tree_elements L input).indexOf (L el)) 0 = L el := by
    rw [List.getD_eq_getElem?_getD, List.getElem?_eq_getElem hidx,
      Option.getD_some, List.getElem_indexOf hidx]
  rw [hgetd] at hwalk
  exact hwalk

/-- Witness for C5 on a concrete tree. -/
theorem merkle_proof_sound_witness :
    List.foldl (combined_hash (fun a b => a + 2 * b)) ((fun x => x * x) 9)
        (get_proof (fun a b => a + 2 * b) (fun x => x * x) [5, 9, 1] 9) =
      tree_root (fun a b => a + 2 * b) (fun x => x * x) [5, 9, 1] :=
  merkle_proof_sound (fun a b => a + 2 * b) (fun x => x * x) [5, 9, 1] 9 (by decide)

/-- C6: the tree root is a function of the leaf set alone — any two inputs
with the same underlying set of elements (permutations, duplicates) give the
same root. -/
theorem merkle_root_deterministic (H : Nat → Nat → Nat) (L : Nat → Nat)
    (l1 l2 : List Nat) (h : ∀ x, x ∈ l1 ↔ x ∈ l2) :
    tree_root H L l1 = tree_root H L l2 := by
  have helem : tree_elements L l1 = tree_elements L l2 := by
    unfold tree_elements
    apply sortedUnique_eq_of_mem_iff
    intro x
    constructor
    · intro hx
      obtain ⟨y, hy, rfl⟩ := List.mem_map.1 hx
      exact List.mem_map_of_mem L ((h y).1 hy)
    · intro hx
      obtain ⟨y, hy, rfl⟩ := List.mem_map.1 hx
      exact List.mem_map_of_mem L ((h y).2 hy)
  unfold tree_root tree_layers
  rw [helem]

/-- Witness for C6: a permutation with a duplicate gives the same root. -/
theorem merkle_root_deterministic_witness :
    tree_root (fun a b => a + 2 * b) (fun x => x + 1) [1, 2, 2] =
      tree_root (fun a b => a + 2 * b) (fun x => x + 1) [2, 1] :=
  merkle_root_deterministic (fun a b => a + 2 * b) (fun x => x + 1) [1, 2, 2] [2, 1]
    (by intro x; simp [List.mem_cons]; tauto)

/-- Witness for C9 (amended) at a concrete chain with the code's constants. -/
theorem batching_independent_witness :
    transfers_to_balances_batched [(10950700, ⟨1, 2, 5⟩)]
        START_BLOCK SNAPSHOT_BLOCK 1000 =
      transfers_to_balances
        (getLogs [(10950700, ⟨1, 2, 5⟩)] START_BLOCK SNAPSHOT_BLOCK) :=
  batching_independent.1 [(10950700, ⟨1, 2, 5⟩)] START_BLOCK SNAPSHOT_BLOCK 1000
    (by decide) (by decide)


end Snapshot
